import Mathlib

/-
Verification of the Markov text generator (src/main.cc) against its
natural-language specification.

The program is a character-level Markov-chain generator.  The shallow
embedding below models:
  * the text normalizer used by the driver function generate(opts, input)
    (short-line filtering, newline folding, ascii restriction, case folding,
    main.cc lines 154-171), and
  * the engine markov_chain<tchar> (main.cc lines 89-129): table building in
    the constructor and the two-phase generation (seed-key rejection sampling
    followed by sliding-window extension).

Strings are modelled as lists of natural code points.  The
std::unordered_map is modelled by the list of its entries in iteration
order.  The std::mt19937 member (standard-library state, not repository
code) is modelled by the infinite sequence of draws it produces after
seeding: a function from draw index to value, together with the count of
draws consumed so far; rng() returns the value at the current index and
advances the index.  The unbounded seed-selection loop of
markov_chain::generate is modelled with explicit fuel: a result of none
means the loop did not finish within the given number of iterations.
-/

namespace Markov

/-- Code points: the element type of corpora and generated text.  The C++
code works on std::basic_string of char32_t (and of char in the
normalizer); both are modelled as lists of natural numbers. -/
abbrev Str := List Nat

/-- Models std::basic_string::substr pos count: the substring starting at
pos holding at most count characters, clamped at the end of the string. -/
def substr (s : Str) (pos count : Nat) : Str := (s.drop pos).take count

/-- Models split_lines (main.cc lines 42-53): cut the string at every
newline (code point 10).  A trailing segment is emitted only when it is
non-empty, exactly as the C++ loop does with its final
if (start < str.size()) push. -/
def splitLines : Str → List Str
  | [] => []
  | c :: rest =>
    if c = 10 then [] :: splitLines rest
    else
      match splitLines rest with
      | [] => [[c]]
      | l :: ls => (c :: l) :: ls

/-- Models fmt::join(input_lines, newline) at main.cc line 157: concatenate
the lines with a single newline between consecutive lines. -/
def joinNL : List Str → Str
  | [] => []
  | [l] => l
  | l :: ls => l ++ 10 :: joinNL ls

/-- Models the short-line filtering stage (main.cc lines 154-158): when
min_line is non-zero, split the input on newlines, erase every line that is
empty or shorter than min_line, and rejoin the remaining lines with
newlines.  When min_line is zero the input passes through unchanged. -/
def applyMinLine (minLine : Nat) (input : Str) : Str :=
  if minLine ≠ 0 then
    joinNL ((splitLines input).filter
      (fun line => !(line.isEmpty || decide (line.length < minLine))))
  else input

/-- Models the newline-folding stage (main.cc lines 161-162): every newline
is overwritten with a space (code point 32). -/
def foldNewlines (s : Str) : Str := s.map (fun c => if c = 10 then 32 else c)

/-- The ascii_chars allow-list of main.cc line 166: lower case letters,
upper case letters, apostrophe, double quote, period, comma, hyphen,
underscore, colon, semicolon, exclamation mark, question mark, parentheses
and space, as code points. -/
def asciiChars : Str :=
  (List.range 26).map (fun i => 97 + i) ++
  (List.range 26).map (fun i => 65 + i) ++
  [39, 34, 46, 44, 45, 95, 58, 59, 33, 63, 40, 41, 32]

/-- Models the optional ascii restriction stage (main.cc lines 165-168):
when the ascii flag is set, erase every character not contained in the
allow-list. -/
def asciiStep (ascii : Bool) (s : Str) : Str :=
  if ascii then s.filter (fun c => asciiChars.contains c) else s

/-- Models std::tolower applied to one character (main.cc line 14) for the
ascii range: upper case letters 65..90 map to 97..122, everything else is
unchanged. -/
def toLowerCh (c : Nat) : Nat := if 65 ≤ c ∧ c ≤ 90 then c + 32 else c

/-- Models to_lower (main.cc lines 12-16): lowercase every character. -/
def toLowerStr (s : Str) : Str := s.map toLowerCh

/-- The full normalization pipeline of generate(opts, input)
(main.cc lines 154-171), in source order: short-line filtering, newline
folding, optional ascii restriction, case folding.  Its result is the
training corpus (the utf-32 decoding that follows is the identity on code
point values). -/
def normalize (minLine : Nat) (ascii : Bool) (input : Str) : Str :=
  toLowerStr (asciiStep ascii (foldNewlines (applyMinLine minLine input)))

/-- Entries of the n-gram table: models the contents of the
std::unordered_map from strings to vectors of characters (the chain field,
main.cc line 95) as the list of its (key, successor list) entries in
iteration order. -/
abbrev Table := List (Str × Str)

/-- Models chain[key].push_back c (main.cc line 101): operator[] inserts
the key with an empty vector when it is absent, and the character is then
appended to the key's vector. -/
def pushSucc : Table → Str → Nat → Table
  | [], key, c => [(key, [c])]
  | (k, v) :: rest, key, c =>
    if k = key then (k, v ++ [c]) :: rest else (k, v) :: pushSucc rest key c

/-- Models chain.find key (main.cc line 121): the successor list stored
under the key, when the key is present. -/
def findEntry : Table → Str → Option Str
  | [], _ => none
  | (k, v) :: rest, key => if k = key then some v else findEntry rest key

/-- The successor list of a key, with the empty list for an absent key. -/
def lookupD (t : Table) (key : Str) : Str := (findEntry t key).getD []

/-- Models the table-building loop of the markov_chain constructor
(main.cc lines 100-101): for every i below text.size() - order, append
text[i + order] to the successor list of the window text.substr(i, order).
For text.length < order the C++ loop bound underflows (size_t) and the
loop indexes out of bounds (undefined behaviour); the model uses truncated
subtraction, under which the loop body does not run in that case. -/
def buildChain (text : Str) (order : Nat) : Table :=
  (List.range (text.length - order)).foldl
    (fun t i => pushSucc t (substr text i order) (text.getD (i + order) 0)) []

/-- Reference successor map, following the specification text: for every
starting index i from 0 to len - order - 1 inclusive, the window
text[i..i+order) is a key and text[i+order] is appended to that key's
successor list, in increasing order of i. -/
def refSuccessors (text : Str) (order : Nat) (key : Str) : Str :=
  (List.range (text.length - order)).filterMap
    (fun i => if substr text i order = key then some (text.getD (i + order) 0) else none)

/-- State of a markov_chain engine (main.cc lines 89-103): the order, the
table, and the random number generator.  The seeded std::mt19937 member is
modelled by the infinite draw sequence it produces (stream, a function of
the seed) together with the number of draws already consumed (pos): each
call rng() yields stream pos and increments pos. -/
structure Engine where
  order : Nat
  chain : Table
  stream : Nat → Nat
  pos : Nat

/-- Models the seed-selection loop of markov_chain::generate
(main.cc lines 110-118): repeatedly draw rng() and take the entry at
position rng() mod chain.size() of the table's iteration order; stop as
soon as the selected key starts with a space (code point 32).  The loop in
the source is unbounded; the model takes fuel, and none means the loop was
still running after that many iterations.  (For an empty table the C++
computes rng() mod 0, which is undefined behaviour; the model then selects
a default empty key, which never starts with a space.) -/
def findSeed : Engine → Nat → Option (Str × Engine)
  | _, 0 => none
  | e, fuel + 1 =>
    if ((e.chain.getD (e.stream e.pos % e.chain.length) ([], [])).1).head? = some 32 then
      some ((e.chain.getD (e.stream e.pos % e.chain.length) ([], [])).1,
        { e with pos := e.pos + 1 })
    else findSeed { e with pos := e.pos + 1 } fuel

/-- Models the extension loop of markov_chain::generate
(main.cc lines 120-125): for i from 0 while i < length, look the current
ngram up in the table; stop on a failed lookup; otherwise append the
successor at position rng() mod size of the key's successor list and slide
the window to result.substr(i + 1, order).  The loop counter is carried as
i together with the number steps of iterations that remain, so that enters
with steps = length and i = 0. -/
def extendLoop : Engine → Nat → Nat → Str → Str → Str × Engine
  | e, _, 0, result, _ => (result, e)
  | e, i, steps + 1, result, ngram =>
    match findEntry e.chain ngram with
    | none => (result, e)
    | some succs =>
      extendLoop { e with pos := e.pos + 1 } (i + 1) steps
        (result ++ [succs.getD (e.stream e.pos % succs.length) 0])
        (substr (result ++ [succs.getD (e.stream e.pos % succs.length) 0]) (i + 1) e.order)

/-- Models markov_chain::generate(length) (main.cc lines 105-128): select a
seed key that starts with a space, append it to the empty result, then run
the extension loop for at most length iterations.  The fuel bounds the
unbounded seed-selection loop only; none means that loop did not finish
within fuel iterations. -/
def generate (e : Engine) (len fuel : Nat) : Option (Str × Engine) :=
  match findSeed e fuel with
  | none => none
  | some (ngram, e1) => some (extendLoop e1 0 len ngram ngram)

/-- A sequence of generate calls on one engine, as performed by the driver
loop (main.cc lines 191-205): each call threads the engine state (its
random number generator position) into the next.  If a call's seed search
does not finish within the fuel, the program is hung and no further
outputs appear. -/
def runCalls (fuel : Nat) : Engine → List Nat → List (Option Str)
  | _, [] => []
  | e, n :: ns =>
    match generate e n fuel with
    | none => [none]
    | some (out, e1) => some out :: runCalls fuel e1 ns

/-- A concrete engine built from the four-code-point corpus
space a space a, with order one and the all-zero draw stream. -/
def E0 : Engine :=
  { order := 1, chain := buildChain [32, 97, 32, 97] 1, stream := fun _ => 0, pos := 0 }

/-- The engine state E0 reaches after one generate call of length two:
three random draws have been consumed. -/
def E3 : Engine :=
  { order := 1, chain := buildChain [32, 97, 32, 97] 1, stream := fun _ => 0, pos := 3 }

/-- A concrete input whose four lines have lengths 3, 15, 2 and 20. -/
def linesInput : Str :=
  joinNL [[97, 98, 99], List.replicate 15 97, [97, 98], List.replicate 20 98]

lemma getD_mem {α : Type} (l : List α) (n : Nat) (d : α) (h : n < l.length) :
    l.getD n d ∈ l := by
  induction l generalizing n with
  | nil => simp at h
  | cons a t ih =>
    cases n with
    | zero => simp [List.getD]
    | succ n =>
      have := ih n (by simpa using h)
      simpa [List.getD] using Or.inr this

lemma findEntry_mem (t : Table) (key v : Str) (h : findEntry t key = some v) :
    (key, v) ∈ t := by
  induction t with
  | nil => simp [findEntry] at h
  | cons p rest ih =>
    obtain ⟨k, w⟩ := p
    by_cases hk : k = key
    · subst hk
      simp [findEntry] at h
      subst h
      exact List.mem_cons_self _ _
    · simp [findEntry, hk] at h
      exact List.mem_cons_of_mem _ (ih h)

lemma pushSucc_lookupD (t : Table) (key : Str) (c : Nat) (q : Str) :
    lookupD (pushSucc t key c) q = lookupD t q ++ (if key = q then [c] else []) := by
  induction t with
  | nil =>
    by_cases h : key = q
    · subst h; simp [pushSucc, lookupD, findEntry]
    · simp [pushSucc, lookupD, findEntry, h]
  | cons p rest ih =>
    obtain ⟨k, w⟩ := p
    by_cases hk : k = key
    · subst hk
      by_cases hq : k = q
      · subst hq; simp [pushSucc, lookupD, findEntry]
      · simp [pushSucc, lookupD, findEntry, hq]
    · by_cases hq : k = q
      · subst hq
        have hkq : ¬ key = k := fun hh => hk hh.symm
        simp [pushSucc, lookupD, findEntry, hk, hkq]
      · simpa [pushSucc, lookupD, findEntry, hk, hq] using ih

lemma buildFold_lookupD (keyf : Nat → Str) (valf : Nat → Nat) (l : List Nat) (q : Str) :
    ∀ t : Table,
      lookupD (l.foldl (fun t i => pushSucc t (keyf i) (valf i)) t) q =
        lookupD t q ++ l.filterMap (fun i => if keyf i = q then some (valf i) else none) := by
  induction l with
  | nil => intro t; simp
  | cons i l ih =>
    intro t
    simp only [List.foldl_cons, List.filterMap_cons]
    rw [ih (pushSucc t (keyf i) (valf i)), pushSucc_lookupD]
    by_cases h : keyf i = q
    · simp [h, List.append_assoc]
    · simp [h]

lemma pushSucc_inv (t : Table) (key : Str) (c k : Nat)
    (ht : ∀ p ∈ t, p.1.length = k ∧ p.2 ≠ []) (hkey : key.length = k) :
    ∀ p ∈ pushSucc t key c, p.1.length = k ∧ p.2 ≠ [] := by
  induction t with
  | nil =>
    intro p hp
    simp [pushSucc] at hp
    subst hp
    exact ⟨hkey, by simp⟩
  | cons q rest ih =>
    obtain ⟨k1, v1⟩ := q
    intro p hp
    by_cases hk : k1 = key
    · subst hk
      simp [pushSucc] at hp
      rcases hp with hp | hp
      · subst hp
        exact ⟨(ht (k1, v1) (List.mem_cons_self _ _)).1, by simp⟩
      · exact ht p (List.mem_cons_of_mem _ hp)
    · simp [pushSucc, hk] at hp
      rcases hp with hp | hp
      · subst hp
        exact ht (k1, v1) (List.mem_cons_self _ _)
      · exact ih (fun p hp => ht p (List.mem_cons_of_mem _ hp)) p hp

lemma buildFold_inv (keyf : Nat → Str) (valf : Nat → Nat) (l : List Nat) (k : Nat)
    (hkeys : ∀ i ∈ l, (keyf i).length = k) :
    ∀ t : Table, (∀ p ∈ t, p.1.length = k ∧ p.2 ≠ []) →
      ∀ p ∈ l.foldl (fun t i => pushSucc t (keyf i) (valf i)) t, p.1.length = k ∧ p.2 ≠ [] := by
  induction l with
  | nil => intro t ht; simpa using ht
  | cons i l ih =>
    intro t ht
    simp only [List.foldl_cons]
    exact ih (fun j hj => hkeys j (List.mem_cons_of_mem _ hj))
      (pushSucc t (keyf i) (valf i))
      (pushSucc_inv t (keyf i) (valf i) k ht (hkeys i (List.mem_cons_self _ _)))

lemma buildChain_inv (text : Str) (k : Nat) :
    ∀ p ∈ buildChain text k, p.1.length = k ∧ p.2 ≠ [] := by
  apply buildFold_inv
  · intro i hi
    have hi' : i < text.length - k := List.mem_range.mp hi
    simp only [substr, List.length_take, List.length_drop]
    omega
  · intro p hp
    simp at hp

lemma findSeed_some (fuel : Nat) :
    ∀ (e e1 : Engine) (ngram : Str), findSeed e fuel = some (ngram, e1) →
      ngram.head? = some 32 ∧ (∃ v, (ngram, v) ∈ e.chain) ∧
        e1.chain = e.chain ∧ e1.order = e.order ∧ e1.stream = e.stream := by
  induction fuel with
  | zero => intro e e1 ngram h; simp [findSeed] at h
  | succ fuel ih =>
    intro e e1 ngram h
    simp only [findSeed] at h
    by_cases hcond :
        ((e.chain.getD (e.stream e.pos % e.chain.length) ([], [])).1).head? = some 32
    · rw [if_pos hcond] at h
      injection h with h'
      rw [Prod.mk.injEq] at h'
      obtain ⟨hng, he1⟩ := h'
      subst hng
      refine ⟨hcond, ?_, by rw [← he1], by rw [← he1], by rw [← he1]⟩
      have hpos : 0 < e.chain.length := by
        by_contra h0
        have : e.chain = [] := by
          cases hc : e.chain
          · rfl
          · rw [hc] at h0; simp at h0
        rw [this] at hcond
        simp [List.getD] at hcond
      have hmem : e.chain.getD (e.stream e.pos % e.chain.length) ([], []) ∈ e.chain :=
        getD_mem _ _ _ (Nat.mod_lt _ hpos)
      exact ⟨(e.chain.getD (e.stream e.pos % e.chain.length) ([], [])).2, by
        simpa using hmem⟩
    · rw [if_neg hcond] at h
      exact ih { e with pos := e.pos + 1 } e1 ngram h

lemma findSeed_none_of_no_space (fuel : Nat) :
    ∀ e : Engine, (∀ p ∈ e.chain, ¬ p.1.head? = some 32) → findSeed e fuel = none := by
  induction fuel with
  | zero => intro e h; rfl
  | succ fuel ih =>
    intro e h
    have hcond :
        ¬ ((e.chain.getD (e.stream e.pos % e.chain.length) ([], [])).1).head? = some 32 := by
      by_cases h0 : e.chain.length = 0
      · have hnil : e.chain = [] := by
          cases hc : e.chain
          · rfl
          · rw [hc] at h0; simp at h0
        rw [hnil]
        simp [List.getD]
      · exact h _ (getD_mem _ _ _ (Nat.mod_lt _ (Nat.pos_of_ne_zero h0)))
    simp only [findSeed, if_neg hcond]
    exact ih { e with pos := e.pos + 1 } h

lemma extendLoop_spec (steps : Nat) :
    ∀ (e : Engine) (i : Nat) (result ngram : Str),
      ∃ ext e2, extendLoop e i steps result ngram = (result ++ ext, e2) ∧
        ext.length ≤ steps ∧ e2.chain = e.chain ∧ e2.order = e.order ∧
        e2.stream = e.stream := by
  induction steps with
  | zero =>
    intro e i result ngram
    exact ⟨[], e, by simp [extendLoop], by simp, rfl, rfl, rfl⟩
  | succ st ih =>
    intro e i result ngram
    cases hf : findEntry e.chain ngram with
    | none => exact ⟨[], e, by simp [extendLoop, hf], by simp, rfl, rfl, rfl⟩
    | some succs =>
      obtain ⟨ext, e2, heq, hle, hch, hor, hstr⟩ :=
        ih { e with pos := e.pos + 1 } (i + 1)
          (result ++ [succs.getD (e.stream e.pos % succs.length) 0])
          (substr (result ++ [succs.getD (e.stream e.pos % succs.length) 0]) (i + 1) e.order)
      refine ⟨succs.getD (e.stream e.pos % succs.length) 0 :: ext, e2, ?_, ?_, hch, hor, hstr⟩
      · simp only [extendLoop, hf, heq]
        simp
      · simpa using Nat.succ_le_succ hle

lemma generate_some (e : Engine) (n fuel : Nat) (out : Str) (e2 : Engine)
    (h : generate e n fuel = some (out, e2)) :
    ∃ ngram ext e1, findSeed e fuel = some (ngram, e1) ∧ out = ngram ++ ext ∧
      ext.length ≤ n ∧ e2.chain = e.chain ∧ ngram.head? = some 32 ∧
      ∃ v, (ngram, v) ∈ e.chain := by
  unfold generate at h
  cases hf : findSeed e fuel with
  | none => rw [hf] at h; simp at h
  | some p =>
    obtain ⟨ngram, e1⟩ := p
    rw [hf] at h
    simp only [] at h
    obtain ⟨ext, e2', heq, hle, hch, _, _⟩ := extendLoop_spec n e1 0 ngram ngram
    rw [heq] at h
    injection h with h'
    rw [Prod.mk.injEq] at h'
    obtain ⟨hout, he2⟩ := h'
    obtain ⟨h32, hmem, hch1, _, _⟩ := findSeed_some fuel e e1 ngram hf
    exact ⟨ngram, ext, e1, rfl, hout.symm, hle, by rw [← he2, hch, hch1], h32, hmem⟩

lemma splitLines_single (l : Str) (hne : l ≠ []) (hnl : 10 ∉ l) : splitLines l = [l] := by
  induction l with
  | nil => exact absurd rfl hne
  | cons c t ih =>
    have hc : ¬ c = 10 := fun hh => hnl (by simp [hh])
    cases t with
    | nil => simp [splitLines, hc]
    | cons c1 t1 =>
      have ht : splitLines (c1 :: t1) = [c1 :: t1] :=
        ih (by simp) (fun hh => hnl (List.mem_cons_of_mem _ hh))
      show (if c = 10 then [] :: splitLines (c1 :: t1)
        else
          match splitLines (c1 :: t1) with
          | [] => [[c]]
          | l :: ls => (c :: l) :: ls) = [c :: c1 :: t1]
      rw [if_neg hc, ht]

lemma splitLines_append_newline (l rest : Str) (hnl : 10 ∉ l) :
    splitLines (l ++ 10 :: rest) = l :: splitLines rest := by
  induction l with
  | nil => simp [splitLines]
  | cons c t ih =>
    have hc : ¬ c = 10 := fun hh => hnl (by simp [hh])
    have ht := ih (fun hh => hnl (List.mem_cons_of_mem _ hh))
    simp [splitLines, hc, ht]

lemma splitLines_joinNL (ls : List Str) (hne : ∀ l ∈ ls, l ≠ []) (hnl : ∀ l ∈ ls, 10 ∉ l) :
    splitLines (joinNL ls) = ls := by
  induction ls with
  | nil => simp [joinNL, splitLines]
  | cons l ls ih =>
    cases ls with
    | nil =>
      simp only [joinNL]
      exact splitLines_single l (hne l (by simp)) (hnl l (by simp))
    | cons l1 ls1 =>
      have hj : joinNL (l :: l1 :: ls1) = l ++ 10 :: joinNL (l1 :: ls1) := by
        simp [joinNL]
      rw [hj, splitLines_append_newline l _ (hnl l (by simp))]
      rw [ih (fun x hx => hne x (List.mem_cons_of_mem _ hx))
        (fun x hx => hnl x (List.mem_cons_of_mem _ hx))]

lemma splitLines_no_newline (s : Str) : ∀ l ∈ splitLines s, 10 ∉ l := by
  induction s with
  | nil => simp [splitLines]
  | cons c rest ih =>
    by_cases hc : c = 10
    · subst hc
      simp only [splitLines, if_pos rfl]
      intro l hl
      rcases List.mem_cons.mp hl with hl | hl
      · subst hl; simp
      · exact ih l hl
    · simp only [splitLines, if_neg hc]
      cases hrec : splitLines rest with
      | nil =>
        intro l hl
        simp at hl
        subst hl
        simp only [List.mem_singleton]
        omega
      | cons l0 ls0 =>
        intro l hl
        rcases List.mem_cons.mp hl with hl | hl
        · subst hl
          intro hmem
          rcases List.mem_cons.mp hmem with hmem | hmem
          · exact hc hmem.symm
          · exact ih l0 (by rw [hrec]; exact List.mem_cons_self _ _) hmem
        · exact ih l (by rw [hrec]; exact List.mem_cons_of_mem _ hl)

lemma filter_eq_self_of (p : Nat → Bool) (s : Str) (h : ∀ c ∈ s, p c = true) :
    s.filter p = s := by
  induction s with
  | nil => rfl
  | cons c t ih =>
    simp [List.filter, h c (by simp), ih (fun x hx => h x (List.mem_cons_of_mem _ hx))]

lemma map_eq_self_of (f : Nat → Nat) (s : Str) (h : ∀ c ∈ s, f c = c) :
    s.map f = s := by
  induction s with
  | nil => rfl
  | cons c t ih =>
    simp [h c (by simp), ih (fun x hx => h x (List.mem_cons_of_mem _ hx))]

/-- C1: for every corpus and every order k with corpus length greater than
k, the table built by the markov_chain constructor equals the reference map
of the specification (for every starting index i from 0 to
length - k - 1 inclusive, the window at i is a key and the character at
i + k is appended to that key's successor list, in increasing order of i);
and the table is not rebuilt by later generate calls: any engine holding
that table still holds it after a completed generate call. -/
theorem build_matches_reference (text : Str) (k : Nat) (_hk : k < text.length) :
    (∀ key, lookupD (buildChain text k) key = refSuccessors text k key) ∧
    (∀ (e e2 : Engine) (n fuel : Nat) (out : Str),
      e.chain = buildChain text k → generate e n fuel = some (out, e2) →
      e2.chain = buildChain text k) := by
  constructor
  · intro key
    have h := buildFold_lookupD (fun i => substr text i k)
      (fun i => text.getD (i + k) 0) (List.range (text.length - k)) key []
    simpa [buildChain, refSuccessors, lookupD, findEntry] using h
  · intro e e2 n fuel out hchain hgen
    obtain ⟨_, _, _, _, _, _, hch, _, _⟩ := generate_some e n fuel out e2 hgen
    rw [hch, hchain]

/-- C1 witness: the claim instantiated on the corpus a space b with order
one. -/
theorem build_matches_reference_witness :
    (∀ key, lookupD (buildChain [97, 32, 98] 1) key = refSuccessors [97, 32, 98] 1 key) ∧
    (∀ (e e2 : Engine) (n fuel : Nat) (out : Str),
      e.chain = buildChain [97, 32, 98] 1 → generate e n fuel = some (out, e2) →
      e2.chain = buildChain [97, 32, 98] 1) :=
  build_matches_reference [97, 32, 98] 1 (by decide)

/-- C2: for every corpus and order k with corpus length greater than k,
every key of the built table has length exactly k and every successor list
is non-empty. -/
theorem table_invariant (text : Str) (k : Nat) (_hk : k < text.length) :
    ∀ p ∈ buildChain text k, p.1.length = k ∧ p.2 ≠ [] :=
  buildChain_inv text k

/-- C2 witness: the invariant instantiated on the three-code-point corpus
a b c with order one. -/
theorem table_invariant_witness :
    1 < 3 ∧ ∀ p ∈ buildChain [97, 98, 99] 1, p.1.length = 1 ∧ p.2 ≠ [] :=
  ⟨by decide, table_invariant [97, 98, 99] 1 (by decide)⟩

/-- C4: the claim says that constructing an engine from a corpus whose
length is at most the order raises InsufficientCorpusError.  The code has
no such check: at the failing input (corpus of the two code points 97 98,
order 2) the constructor loop body never runs and the engine silently
holds an empty table, with no error of any kind; looking up the whole
corpus as a key finds nothing. -/
theorem insufficient_corpus_builds_empty_table :
    buildChain [97, 98] 2 = [] ∧ findEntry (buildChain [97, 98] 2) [97, 98] = none :=
  ⟨rfl, rfl⟩

/-- C3: generation is deterministic: two engines that agree on the order,
the table, the seeded draw stream (std::mt19937 is a deterministic function
of its seed) and the number of draws already consumed produce identical
outputs, call for call, for any fixed sequence of generate calls; and every
call advances the one shared generator, so in a two-call run the second
output is computed from the engine state left behind by the first call. -/
theorem generate_deterministic (e1 e2 : Engine) (fuel : Nat) (ns : List Nat)
    (ho : e1.order = e2.order) (hc : e1.chain = e2.chain)
    (hs : e1.stream = e2.stream) (hp : e1.pos = e2.pos) :
    runCalls fuel e1 ns = runCalls fuel e2 ns ∧
    ∀ (n1 n2 : Nat) (out1 : Str) (e3 : Engine),
      generate e1 n1 fuel = some (out1, e3) →
      runCalls fuel e1 [n1, n2] = some out1 :: (generate e3 n2 fuel).map Prod.fst :: [] := by
  have he : e1 = e2 := by
    cases e1
    cases e2
    rw [Engine.mk.injEq]
    exact ⟨ho, hc, hs, hp⟩
  constructor
  · rw [he]
  · intro n1 n2 out1 e3 hgen
    simp only [runCalls, hgen]
    cases h2 : generate e3 n2 fuel with
    | none => simp [runCalls, h2]
    | some p =>
      obtain ⟨o, e4⟩ := p
      simp [runCalls, h2]

/-- C3 witness: the determinism claim instantiated at the concrete engine
E0 (twice) with a run of two generate calls. -/
theorem generate_deterministic_witness :
    runCalls 3 E0 [1, 2] = runCalls 3 E0 [1, 2] ∧
    ∀ (n1 n2 : Nat) (out1 : Str) (e3 : Engine),
      generate E0 n1 3 = some (out1, e3) →
      runCalls 3 E0 [n1, n2] = some out1 :: (generate e3 n2 3).map Prod.fst :: [] :=
  generate_deterministic E0 E0 3 [1, 2] rfl rfl rfl rfl

/-- C5: the claim says generate checks up front that some key of the table
starts with a space and fails fast otherwise, so that every call
terminates.  The code has no such check: for the engine built from the
corpus a b a b with order one (whose two keys are the letters a and b,
neither starting with a space), the seed-selection rejection loop never
finds a qualifying key, so generate never returns, whatever the draw
stream, the generator position, the requested length and the number of
loop iterations examined. -/
theorem seed_search_never_terminates_without_space_key :
    ∀ (stream : Nat → Nat) (pos n fuel : Nat),
      generate { order := 1, chain := buildChain [97, 98, 97, 98] 1,
                 stream := stream, pos := pos } n fuel = none := by
  intro stream pos n fuel
  have hno : ∀ p ∈ buildChain [97, 98, 97, 98] 1, ¬ p.1.head? = some 32 := by decide
  have h := findSeed_none_of_no_space fuel
    { order := 1, chain := buildChain [97, 98, 97, 98] 1, stream := stream, pos := pos } hno
  simp [generate, h]

/-- C6 counterexample: the claim says every sequence returned by
generate(length) contains at most length code points.  At the concrete
engine E0 the call generate 2 returns a sequence of three code points
(the one-character seed ngram plus the two extension characters),
and three is more than two. -/
theorem generate_length_exceeds_bound :
    (generate E0 2 1).map (fun p => p.1.length) = some 3 ∧ ¬ 3 ≤ 2 :=
  ⟨rfl, by decide⟩

/-- C6 amended: the extension phase looks up the sliding window, stops
when the lookup fails, and otherwise appends one successor per iteration
for at most length iterations; the appended extension therefore holds at
most length code points, and the whole returned sequence (seed ngram plus
extension) holds at most order + length code points. -/
theorem generate_length_le_order_add_length (text : Str) (k : Nat) (stream : Nat → Nat)
    (pos n fuel : Nat) (out : Str) (e2 : Engine)
    (hgen : generate { order := k, chain := buildChain text k,
                       stream := stream, pos := pos } n fuel = some (out, e2)) :
    out.length ≤ k + n := by
  obtain ⟨ngram, ext, e1, _, hout, hle, _, _, v, hmem⟩ :=
    generate_some _ n fuel out e2 hgen
  have hklen : ngram.length = k := (buildChain_inv text k (ngram, v) hmem).1
  rw [hout]
  simp only [List.length_append, hklen]
  omega

/-- C6 amended witness: at the engine E0 (order one) the call generate 2
returns a sequence of exactly three code points, within the amended bound
of order + length. -/
theorem generate_length_le_order_add_length_witness :
    generate E0 2 1 = some ([32, 97, 32], E3) ∧ ([32, 97, 32] : Str).length ≤ 1 + 2 :=
  ⟨rfl, generate_length_le_order_add_length [32, 97, 32, 97] 1 (fun _ => 0) 0 2 1
    [32, 97, 32] E3 rfl⟩

/-- C7: for an engine holding the table built from a corpus (longer than
the order) that contains at least one space-initial key, generate 0
performs no extension at all: its result is exactly the result of the
seed-key search, and whenever that search returns, the returned sequence
is the seed ngram, of length exactly the order. -/
theorem generate_zero_returns_seed_ngram (e : Engine) (text : Str) (k fuel : Nat)
    (_hk : k < text.length) (hchain : e.chain = buildChain text k)
    (_hspace : ∃ p ∈ e.chain, p.1.head? = some 32) :
    generate e 0 fuel = findSeed e fuel ∧
    ∀ (out : Str) (e1 : Engine), findSeed e fuel = some (out, e1) → out.length = k := by
  constructor
  · unfold generate
    cases hf : findSeed e fuel with
    | none => rfl
    | some p =>
      obtain ⟨ngram, e1⟩ := p
      simp [extendLoop]
  · intro out e1 hf
    obtain ⟨_, ⟨v, hmem⟩, _, _, _⟩ := findSeed_some fuel e e1 out hf
    rw [hchain] at hmem
    exact (buildChain_inv text k (out, v) hmem).1

/-- C7 witness: the claim instantiated at the engine E0, whose corpus
space a space a has the space-initial key space. -/
theorem generate_zero_returns_seed_ngram_witness :
    (1 < 4 ∧ E0.chain = buildChain [32, 97, 32, 97] 1 ∧
      ∃ p ∈ E0.chain, p.1.head? = some 32) ∧
    (generate E0 0 2 = findSeed E0 2 ∧
      ∀ (out : Str) (e1 : Engine), findSeed E0 2 = some (out, e1) → out.length = 1) :=
  ⟨⟨by decide, rfl, by decide⟩,
    generate_zero_returns_seed_ngram E0 [32, 97, 32, 97] 1 2 (by decide) rfl (by decide)⟩

/-- C10: for an engine holding a table built from a corpus (longer than
the order) and containing at least one space-initial key, every sequence
returned by a terminating generate call begins with a space, and its
length is at least the order: the seed loop only accepts a key whose
first character is a space, and the output extends that key. -/
theorem generate_output_starts_with_space (e : Engine) (text : Str) (k n fuel : Nat)
    (_hk : k < text.length) (hchain : e.chain = buildChain text k)
    (_hspace : ∃ p ∈ e.chain, p.1.head? = some 32)
    (out : Str) (e2 : Engine) (hgen : generate e n fuel = some (out, e2)) :
    out.head? = some 32 ∧ k ≤ out.length := by
  obtain ⟨ngram, ext, e1, _, hout, _, _, h32, v, hmem⟩ :=
    generate_some e n fuel out e2 hgen
  rw [hchain] at hmem
  have hklen : ngram.length = k := (buildChain_inv text k (ngram, v) hmem).1
  constructor
  · rw [hout]
    cases ngram with
    | nil => simp at h32
    | cons c t => simpa using h32
  · rw [hout]
    simp only [List.length_append, hklen]
    omega

/-- C10 witness: at the engine E0 the call generate 2 returns the sequence
space a space, which starts with a space and has length at least the
order. -/
theorem generate_output_starts_with_space_witness :
    generate E0 2 1 = some ([32, 97, 32], E3) ∧
      ([32, 97, 32] : Str).head? = some 32 ∧ 1 ≤ ([32, 97, 32] : Str).length :=
  ⟨rfl, generate_output_starts_with_space E0 [32, 97, 32, 97] 1 2 1 (by decide) rfl
    (by decide) [32, 97, 32] E3 rfl⟩

/-- C8: when min_line filtering is enabled (min_line positive), the lines
of the filtered input are exactly the lines of the original input whose
length is at least min_line (so precisely the empty and short lines are
dropped), in their original order: the retained line list is both equal to
a filter of the original line list and a sublist of it. -/
theorem min_line_filtering (m : Nat) (s : Str) (hm : 0 < m) :
    splitLines (applyMinLine m s) = (splitLines s).filter (fun l => decide (m ≤ l.length)) ∧
    List.Sublist ((splitLines s).filter (fun l => decide (m ≤ l.length))) (splitLines s) := by
  refine ⟨?_, List.filter_sublist _⟩
  unfold applyMinLine
  rw [if_pos (by omega : m ≠ 0)]
  have hfil : (splitLines s).filter (fun l => !(l.isEmpty || decide (l.length < m)))
      = (splitLines s).filter (fun l => decide (m ≤ l.length)) := by
    apply List.filter_congr
    intro l _
    cases l with
    | nil =>
      simp only [List.isEmpty_nil, Bool.true_or, Bool.not_true, List.length_nil]
      exact (decide_eq_false (by omega)).symm
    | cons a t =>
      simp only [List.isEmpty_cons, Bool.false_or, List.length_cons]
      rw [← decide_not]
      exact decide_eq_decide.mpr (by omega)
  rw [hfil]
  apply splitLines_joinNL
  · intro l hl
    have hml : m ≤ l.length := of_decide_eq_true (List.mem_filter.mp hl).2
    intro hnil
    rw [hnil] at hml
    simp at hml
    omega
  · intro l hl
    exact splitLines_no_newline s l (List.mem_filter.mp hl).1

/-- C8 witness: on the concrete input whose lines have lengths 3, 15, 2
and 20, filtering with min_line 10 keeps exactly the two lines of length
at least 10, in their original order. -/
theorem min_line_filtering_witness :
    0 < 10 ∧
    (splitLines (applyMinLine 10 linesInput) =
        (splitLines linesInput).filter (fun l => decide (10 ≤ l.length)) ∧
      List.Sublist ((splitLines linesInput).filter (fun l => decide (10 ≤ l.length)))
        (splitLines linesInput)) ∧
    (splitLines linesInput).filter (fun l => decide (10 ≤ l.length)) =
      [List.replicate 15 97, List.replicate 20 98] :=
  ⟨by decide, min_line_filtering 10 linesInput (by decide), by decide⟩

/-- C9 counterexample: the claim says the normalizer is idempotent on any
already-normalized string (lowercase, no newlines, allow-listed
characters).  The two-code-point string a b is already normalized in that
sense, yet with min_line 10 enabled the normalizer drops it as a short
line and returns the empty string. -/
theorem normalize_not_idempotent_short_string :
    (10 ∉ ([97, 98] : Str)) ∧
    (∀ c ∈ ([97, 98] : Str), asciiChars.contains c = true) ∧
    (∀ c ∈ ([97, 98] : Str), toLowerCh c = c) ∧
    normalize 10 true [97, 98] ≠ [97, 98] := by decide

/-- C9 amended: the normalizer is idempotent on an already-normalized
string (no newlines, all characters in the allow-list, already lowercase)
provided the string survives short-line filtering, that is, min_line
filtering is disabled, or the string is empty, or its length is at least
min_line.  (Without that proviso the claim fails: see the
counterexample.) -/
theorem normalize_idempotent (m : Nat) (ascii : Bool) (s : Str)
    (hnl : 10 ∉ s)
    (hascii : ∀ c ∈ s, asciiChars.contains c = true)
    (hlower : ∀ c ∈ s, toLowerCh c = c)
    (hlen : m = 0 ∨ s = [] ∨ m ≤ s.length) :
    normalize m ascii s = s := by
  have h1 : applyMinLine m s = s := by
    unfold applyMinLine
    by_cases hm : m = 0
    · rw [if_neg (by simp [hm])]
    · rw [if_pos hm]
      rcases hlen with hlen | hlen | hlen
      · exact absurd hlen hm
      · subst hlen; rfl
      · have hs : s ≠ [] := by
          intro hh
          rw [hh] at hlen
          simp at hlen
          omega
        rw [splitLines_single s hs hnl]
        have hemp : s.isEmpty = false := by
          cases s
          · exact absurd rfl hs
          · rfl
        have hlt : decide (s.length < m) = false := decide_eq_false (by omega)
        simp [List.filter, hemp, hlt, joinNL]
  have h2 : foldNewlines s = s := by
    apply map_eq_self_of
    intro c hc
    have hcn : c ≠ 10 := fun hh => hnl (hh ▸ hc)
    simp [hcn]
  have h3 : asciiStep ascii s = s := by
    cases ascii
    · rfl
    · exact filter_eq_self_of _ s hascii
  have h4 : toLowerStr s = s := map_eq_self_of _ s hlower
  rw [normalize, h1, h2, h3, h4]

/-- C9 amended witness: with filtering disabled the normalizer leaves the
already-normalized string a space b unchanged. -/
theorem normalize_idempotent_witness :
    (10 ∉ ([97, 32, 98] : Str)) ∧ normalize 0 true [97, 32, 98] = [97, 32, 98] :=
  ⟨by decide, normalize_idempotent 0 true [97, 32, 98] (by decide) (by decide) (by decide)
    (Or.inl rfl)⟩

end Markov
